import Mathlib

/-!
Verification of the documentation pipeline implemented in
`generate_docs.py` (the cached variant of the repository's scripts).

Python strings are modelled as `List Char`.  The external
generation service (Azure OpenAI) is modelled as a deterministic oracle
`Svc : List Char → Option (List Char)` taking the truncated code embedded in
the request and returning the generated text, or `none` for any transport or
service error.  Network traffic is made observable by counting the calls made
to the oracle.  The in-memory cache (a Python `dict` keyed by hex digests) is
modelled as an association list, and the file system is passed explicitly:
each operation receives the current file content and returns the content
after the run.
-/

/-- Characters stripped by Python's `str.strip()` and matched by the regex
class `\s` (for the ASCII / Latin-1 range; exotic Unicode space code points
do not occur in the inputs considered here). -/
def pyWhitespace (c : Char) : Bool :=
  c == ' ' || c == '\t' || c == '\n' || c == '\x0b' || c == '\x0c' || c == '\r' ||
  c == '\x1c' || c == '\x1d' || c == '\x1e' || c == '\x1f' || c == '\x85' || c == '\xa0'

/-- Line boundaries recognised by Python's `str.splitlines`. -/
def pyLineBoundary (c : Char) : Bool :=
  c == '\n' || c == '\r' || c == '\x0b' || c == '\x0c' ||
  c == '\x1c' || c == '\x1d' || c == '\x1e' || c == '\x85' ||
  c == '\u2028' || c == '\u2029'

/-- Python `content.strip()`: drop leading and trailing whitespace. -/
def pyStrip (l : List Char) : List Char :=
  ((l.dropWhile pyWhitespace).reverse.dropWhile pyWhitespace).reverse

/-- Worker for `splitlines`: `acc` is the current line, reversed.  The pair
`"\r\n"` counts as a single boundary; a final line without terminator is kept,
and a trailing terminator does not produce an extra empty line, exactly as in
Python. -/
def splitlinesGo : List Char → List Char → List (List Char)
  | [], acc => if acc.isEmpty then [] else [acc.reverse]
  | '\r' :: '\n' :: rest, acc => acc.reverse :: splitlinesGo rest []
  | c :: rest, acc =>
      if pyLineBoundary c then acc.reverse :: splitlinesGo rest []
      else splitlinesGo rest (c :: acc)

/-- Python `code.splitlines()`. -/
def splitlines (l : List Char) : List (List Char) := splitlinesGo l []

/-- Python `"\n".join(lines)`. -/
def joinNL : List (List Char) → List Char
  | [] => []
  | [l] => l
  | l :: rest => l ++ '\n' :: joinNL rest

/-- `MAX_LINES` from `generate_docs.py`. -/
def MAX_LINES : Nat := 1000

/-- `MAX_CHARS` from `generate_docs.py`. -/
def MAX_CHARS : Nat := 4000

/-- `truncate_code` from `generate_docs.py`:
`"\n".join(code.splitlines()[:MAX_LINES])[:MAX_CHARS]`. -/
def truncate_code (code : List Char) : List Char :=
  (joinNL ((splitlines code).take MAX_LINES)).take MAX_CHARS

/-- Scan for the earliest occurrence of the two-character sequence `*/` and
return the remainder of the list after it.  This is how the lazy regex
fragment `.*?\*/` selects the closing delimiter nearest to the opening one. -/
def findClose : List Char → Option (List Char)
  | [] => none
  | '*' :: rest =>
      match rest with
      | '/' :: rest' => some rest'
      | _ => findClose rest
  | _ :: rest => findClose rest

theorem findClose_length :
    ∀ l after, findClose l = some after → after.length < l.length := by
  intro l
  induction l with
  | nil => intro after h; simp [findClose] at h
  | cons c rest ih =>
    intro after h
    by_cases hc : c = '*'
    · subst hc
      match rest, h with
      | [], h => simp [findClose] at h
      | '/' :: rest', h =>
        simp [findClose] at h
        subst h; simp; omega
      | c' :: rest', h =>
        by_cases hc' : c' = '/'
        · subst hc'; simp [findClose] at h; subst h; simp; omega
        · have hr : findClose ('*' :: c' :: rest') = findClose (c' :: rest') := by
            simp [findClose, hc']
          rw [hr] at h
          have := ih after h
          simp at this ⊢; omega
    · have hr : findClose (c :: rest) = findClose rest := by
        cases rest with
        | nil => simp [findClose, hc]
        | cons b r => simp [findClose, hc]
      rw [hr] at h
      have := ih after h
      simp; omega

/-- Fuel-indexed worker for the regex substitution
`re.sub(r"/\*.*?\*/\s*", "", content, flags=re.DOTALL)`: scanning left to
right, each (lazily matched) `/* ... */` block together with the whitespace
following it is deleted; an unclosed `/*` never matches.  The fuel argument
only makes the recursion structural; `extract_existing_code` supplies enough
fuel for it never to run out. -/
def stripFuel : Nat → List Char → List Char
  | 0, l => l
  | _ + 1, [] => []
  | _ + 1, [c] => [c]
  | fuel + 1, a :: b :: rest =>
      if a = '/' ∧ b = '*' then
        match findClose rest with
        | some after => stripFuel fuel (after.dropWhile pyWhitespace)
        | none => a :: stripFuel fuel (b :: rest)
      else a :: stripFuel fuel (b :: rest)

/-- `extract_existing_code` from `generate_docs.py`:
`re.sub(r"/\*.*?\*/\s*", "", content, flags=re.DOTALL)`. -/
def extract_existing_code (l : List Char) : List Char :=
  stripFuel l.length l

theorem stripFuel_congr :
    ∀ f₁ f₂ l, l.length ≤ f₁ → l.length ≤ f₂ → stripFuel f₁ l = stripFuel f₂ l := by
  intro f₁
  induction f₁ with
  | zero =>
    intro f₂ l h₁ _
    have : l = [] := List.length_eq_zero.mp (Nat.le_zero.mp h₁)
    subst this
    cases f₂ <;> rfl
  | succ g₁ ih =>
    intro f₂ l h₁ h₂
    match f₂, l, h₁, h₂ with
    | f₂, [], _, _ => cases f₂ <;> rfl
    | 0, [c], _, h₂ => simp at h₂
    | g₂ + 1, [c], _, _ => rfl
    | 0, a :: b :: rest, _, h₂ => simp at h₂
    | g₂ + 1, a :: b :: rest, h₁, h₂ =>
      have h₁' : rest.length + 2 ≤ g₁ + 1 := by simpa using h₁
      have h₂' : rest.length + 2 ≤ g₂ + 1 := by simpa using h₂
      simp only [stripFuel]
      by_cases hab : a = '/' ∧ b = '*'
      · simp only [if_pos hab]
        cases hc : findClose rest with
        | some after =>
          have hlen := findClose_length rest after hc
          have hd : (after.dropWhile pyWhitespace).length ≤ after.length :=
            (List.dropWhile_suffix pyWhitespace).length_le
          exact ih g₂ _ (by omega) (by omega)
        | none =>
          have := ih g₂ (b :: rest) (by simp; omega) (by simp; omega)
          simp [this]
      · simp only [if_neg hab]
        have := ih g₂ (b :: rest) (by simp; omega) (by simp; omega)
        simp [this]

theorem extract_nil : extract_existing_code [] = [] := rfl

theorem extract_single (c : Char) : extract_existing_code [c] = [c] := rfl

theorem extract_cons (a b : Char) (rest : List Char) (h : ¬(a = '/' ∧ b = '*')) :
    extract_existing_code (a :: b :: rest) = a :: extract_existing_code (b :: rest) := by
  show stripFuel (rest.length + 2) (a :: b :: rest) = _
  simp only [stripFuel, if_neg h]
  rw [stripFuel_congr (rest.length + 1) (b :: rest).length (b :: rest) (by simp) (by simp)]
  rfl

theorem extract_open (rest after : List Char) (h : findClose rest = some after) :
    extract_existing_code ('/' :: '*' :: rest) =
      extract_existing_code (after.dropWhile pyWhitespace) := by
  show stripFuel (rest.length + 2) _ = _
  simp only [stripFuel, if_pos (And.intro rfl rfl), h]
  have hlen := findClose_length rest after h
  have hd : (after.dropWhile pyWhitespace).length ≤ after.length :=
    (List.dropWhile_suffix pyWhitespace).length_le
  exact stripFuel_congr _ _ _ (by omega) (by omega)

theorem extract_open_none (rest : List Char) (h : findClose rest = none) :
    extract_existing_code ('/' :: '*' :: rest) = '/' :: extract_existing_code ('*' :: rest) := by
  show stripFuel (rest.length + 2) _ = _
  simp only [stripFuel, if_pos (And.intro rfl rfl), h]
  rw [stripFuel_congr (rest.length + 1) ('*' :: rest).length ('*' :: rest) (by simp) (by simp)]
  rfl

/-!
MD5, as computed by `hashlib.md5(code.encode()).hexdigest()` in
`get_code_hash`.  Words are natural numbers reduced modulo `2 ^ 32`.
-/

/-- Reduce a natural number to a 32-bit word. -/
def m32 (n : Nat) : Nat := n % 4294967296

/-- Left-rotation of a 32-bit word. -/
def rotl32 (x s : Nat) : Nat := (x * 2 ^ s) % 4294967296 + x / 2 ^ (32 - s)

/-- MD5 round function for rounds 0-15. -/
def md5F (b c d : Nat) : Nat := (b &&& c) ||| ((4294967295 - b) &&& d)

/-- MD5 round function for rounds 16-31. -/
def md5G (b c d : Nat) : Nat := (b &&& d) ||| (c &&& (4294967295 - d))

/-- MD5 round function for rounds 32-47. -/
def md5H (b c d : Nat) : Nat := b ^^^ c ^^^ d

/-- MD5 round function for rounds 48-63. -/
def md5I (b c d : Nat) : Nat := c ^^^ (b ||| (4294967295 - d))

/-- MD5 sine-derived constant table. -/
def md5K : List Nat :=
  [0xd76aa478, 0xe8c7b756, 0x242070db, 0xc1bdceee, 0xf57c0faf, 0x4787c62a, 0xa8304613, 0xfd469501,
   0x698098d8, 0x8b44f7af, 0xffff5bb1, 0x895cd7be, 0x6b901122, 0xfd987193, 0xa679438e, 0x49b40821,
   0xf61e2562, 0xc040b340, 0x265e5a51, 0xe9b6c7aa, 0xd62f105d, 0x02441453, 0xd8a1e681, 0xe7d3fbc8,
   0x21e1cde6, 0xc33707d6, 0xf4d50d87, 0x455a14ed, 0xa9e3e905, 0xfcefa3f8, 0x676f02d9, 0x8d2a4c8a,
   0xfffa3942, 0x8771f681, 0x6d9d6122, 0xfde5380c, 0xa4beea44, 0x4bdecfa9, 0xf6bb4b60, 0xbebfbc70,
   0x289b7ec6, 0xeaa127fa, 0xd4ef3085, 0x04881d05, 0xd9d4d039, 0xe6db99e5, 0x1fa27cf8, 0xc4ac5665,
   0xf4292244, 0x432aff97, 0xab9423a7, 0xfc93a039, 0x655b59c3, 0x8f0ccc92, 0xffeff47d, 0x85845dd1,
   0x6fa87e4f, 0xfe2ce6e0, 0xa3014314, 0x4e0811a1, 0xf7537e82, 0xbd3af235, 0x2ad7d2bb, 0xeb86d391]

/-- MD5 per-round shift amounts. -/
def md5S : List Nat :=
  [7, 12, 17, 22, 7, 12, 17, 22, 7, 12, 17, 22, 7, 12, 17, 22,
   5, 9, 14, 20, 5, 9, 14, 20, 5, 9, 14, 20, 5, 9, 14, 20,
   4, 11, 16, 23, 4, 11, 16, 23, 4, 11, 16, 23, 4, 11, 16, 23,
   6, 10, 15, 21, 6, 10, 15, 21, 6, 10, 15, 21, 6, 10, 15, 21]

/-- Assemble a little-endian 32-bit word list from a byte list. -/
def toWords : List Nat → List Nat
  | b0 :: b1 :: b2 :: b3 :: rest =>
      (b0 + 256 * b1 + 65536 * b2 + 16777216 * b3) :: toWords rest
  | _ => []

/-- Split a byte list into 64-byte chunks. -/
def chunks : List Nat → List (List Nat)
  | [] => []
  | b :: rest => (b :: rest).take 64 :: chunks ((b :: rest).drop 64)
termination_by l => l.length
decreasing_by simp [List.length_drop]; omega

/-- Little-endian byte encoding of a number on `k` bytes. -/
def leBytes (k n : Nat) : List Nat := (List.range k).map fun i => n / 256 ^ i % 256

/-- One MD5 round applied to the state `(a, b, c, d)`. -/
def md5Step (msg : List Nat) (i : Nat) : Nat × Nat × Nat × Nat → Nat × Nat × Nat × Nat :=
  fun (a, b, c, d) =>
    let f :=
      if i < 16 then md5F b c d
      else if i < 32 then md5G b c d
      else if i < 48 then md5H b c d
      else md5I b c d
    let g :=
      if i < 16 then i
      else if i < 32 then (5 * i + 1) % 16
      else if i < 48 then (3 * i + 5) % 16
      else 7 * i % 16
    let tmp := m32 (f + a + md5K.getD i 0 + msg.getD g 0)
    (d, m32 (b + rotl32 tmp (md5S.getD i 0)), b, c)

/-- Process one 64-byte chunk. -/
def md5Chunk (h : Nat × Nat × Nat × Nat) (chunk : List Nat) : Nat × Nat × Nat × Nat :=
  let msg := toWords chunk
  let s := (List.range 64).foldl (fun s i => md5Step msg i s) h
  (m32 (h.1 + s.1), m32 (h.2.1 + s.2.1), m32 (h.2.2.1 + s.2.2.1), m32 (h.2.2.2 + s.2.2.2))

/-- MD5 padding: a `0x80` byte, zeros up to 56 bytes modulo 64, then the
bit length as a little-endian 64-bit number. -/
def md5Pad (msg : List Nat) : List Nat :=
  msg ++ 128 :: List.replicate ((120 - (msg.length + 1) % 64) % 64) 0 ++
    leBytes 8 (8 * msg.length % 18446744073709551616)

/-- The sixteen MD5 digest bytes of a byte message. -/
def md5Bytes (msg : List Nat) : List Nat :=
  let s := (chunks (md5Pad msg)).foldl md5Chunk
    (0x67452301, 0xefcdab89, 0x98badcfe, 0x10325476)
  leBytes 4 s.1 ++ leBytes 4 s.2.1 ++ leBytes 4 s.2.2.1 ++ leBytes 4 s.2.2.2

/-- Lower-case hexadecimal digit. -/
def hexDigit (n : Nat) : Char := if n < 10 then Char.ofNat (48 + n) else Char.ofNat (87 + n)

/-- Lower-case hexadecimal rendering of a byte list. -/
def hexOfBytes (bytes : List Nat) : List Char :=
  bytes.flatMap fun b => [hexDigit (b / 16), hexDigit (b % 16)]

/-- UTF-8 encoding of one character, as in Python's `str.encode()`. -/
def utf8Char (c : Char) : List Nat :=
  let n := c.toNat
  if n < 128 then [n]
  else if n < 2048 then [192 + n / 64, 128 + n % 64]
  else if n < 65536 then [224 + n / 4096, 128 + n / 64 % 64, 128 + n % 64]
  else [240 + n / 262144, 128 + n / 4096 % 64, 128 + n / 64 % 64, 128 + n % 64]

/-- UTF-8 encoding of a string, as in Python's `str.encode()`. -/
def utf8Bytes (l : List Char) : List Nat := l.flatMap utf8Char

/-- `get_code_hash` from `generate_docs.py`:
`hashlib.md5(code.encode()).hexdigest()`. -/
def get_code_hash (code : List Char) : List Char := hexOfBytes (md5Bytes (utf8Bytes code))

/-!
The pipeline state: the cache dictionary, the generation service, and the
per-file and per-run operations of `generate_docs.py`.
-/

/-- The `CACHE` dictionary: an association list from hex digests to
documentation texts.  Lookup returns the first binding of the key; insertion
overwrites an existing binding. -/
abbrev Dict := List (List Char × List Char)

/-- Python `cache[key]` lookup (`key in CACHE` / `CACHE[key]`). -/
def dictLookup : Dict → List Char → Option (List Char)
  | [], _ => none
  | (k, v) :: rest, key => if k = key then some v else dictLookup rest key

/-- Python `CACHE[key] = v`. -/
def dictInsert : Dict → List Char → List Char → Dict
  | [], key, v => [(key, v)]
  | (k, w) :: rest, key, v =>
      if k = key then (k, v) :: rest else (k, w) :: dictInsert rest key v

/-- The external generation service: maps the truncated code embedded in the
request to the generated text, or to `none` on any transport or service
error. -/
abbrev Svc := List Char → Option (List Char)

/-- Result of `generate_documentation`: the returned value (`None` on
failure), the cache after the call, and the number of network calls made. -/
structure GenOut where
  ret : Option (List Char)
  cache : Dict
  net : Nat
deriving DecidableEq

/-- `generate_documentation` from `generate_docs.py`: truncate, hash, return
the cached text on a hit; otherwise make one service call and cache a
successful response. -/
def generate_documentation (svc : Svc) (cache : Dict) (code : List Char) : GenOut :=
  let truncated_code := truncate_code code
  let code_hash := get_code_hash truncated_code
  match dictLookup cache code_hash with
  | some cached => ⟨some cached, cache, 0⟩
  | none =>
      match svc truncated_code with
      | some text => ⟨some text, dictInsert cache code_hash text, 1⟩
      | none => ⟨none, cache, 1⟩

/-- The fingerprint of a content string: the cache key
`get_code_hash(truncate_code(code))` computed in `generate_documentation`. -/
def fingerprint (code : List Char) : List Char := get_code_hash (truncate_code code)

/-- The write format of `process_file`:
`f"/*\n{documentation}\n*/\n{clean_code}"`. -/
def wrap (documentation clean_code : List Char) : List Char :=
  "/*\n".data ++ documentation ++ "\n*/\n".data ++ clean_code

/-- Result of `process_file`: the returned value (the path on update, `None`
on skip), the on-disk content after the call, the cache after the call, and
the number of network calls made. -/
structure ProcOut where
  ret : Option (List Char)
  content : List Char
  cache : Dict
  net : Nat
deriving DecidableEq

/-- `process_file` from `generate_docs.py`: read and trim the content, skip
empty files, strip prior documentation blocks, generate documentation, and
write the wrapped result back only on success.  The guard `if documentation:`
is Python truthiness: it skips both on `None` (generation failure) and on an
empty documentation string (for instance a cached empty entry or an empty
service response). -/
def process_file (svc : Svc) (path : List Char) (cache : Dict) (content : List Char) :
    ProcOut :=
  let original_content := pyStrip content
  if original_content.isEmpty then ⟨none, content, cache, 0⟩
  else
    let clean_code := extract_existing_code original_content
    let g := generate_documentation svc cache clean_code
    match g.ret with
    | some documentation =>
        if documentation.isEmpty then ⟨none, content, g.cache, g.net⟩
        else ⟨some path, wrap documentation clean_code, g.cache, g.net⟩
    | none => ⟨none, content, g.cache, g.net⟩

/-- Result of a run over a list of files: the collected `updated_files`, the
on-disk content of every file after the run (in traversal order), the final
cache, and the total number of network calls. -/
structure RunOut where
  updated_files : List (List Char)
  contents : List (List Char × List Char)
  cache : Dict
  net : Nat

/-- The per-file loop of `traverse_and_update_files`:
`executor.map(process_file, valid_files)` followed by `filter(None, ...)`,
modelled in submission order with the shared cache threaded through the
files one at a time. -/
def runFiles (svc : Svc) : Dict → List (List Char × List Char) → RunOut
  | cache, [] => ⟨[], [], cache, 0⟩
  | cache, (path, content) :: rest =>
      let r := process_file svc path cache content
      let s := runFiles svc r.cache rest
      ⟨(match r.ret with
        | some q => q :: s.updated_files
        | none => s.updated_files),
       (path, r.content) :: s.contents, s.cache, r.net + s.net⟩

/-- `traverse_and_update_files` from `generate_docs.py`, including the final
artifact step: `updated_files.txt` is overwritten with
`"\n".join(updated_files)` only when `updated_files` is non-empty, so the
second component carries the artifact file's content (`prev` being whatever
content a previous run left behind, `none` when the file does not exist). -/
def traverse_and_update_files (svc : Svc) (cache : Dict)
    (files : List (List Char × List Char)) (prev : Option (List Char)) :
    RunOut × Option (List Char) :=
  let r := runFiles svc cache files
  (r, if r.updated_files.isEmpty then prev else some (joinNL r.updated_files))

/-!
File discovery: the list comprehension in `traverse_and_update_files` that
walks `SRC_FOLDER` and filters on file names.
-/

/-- Python `s.endswith(sfx)`. -/
def pyEndsWith (s sfx : List Char) : Bool := List.isSuffixOf sfx s

/-- The filename filter of the comprehension:
`file.endswith((".js", ".ts", ".kt")) and not
file.endswith((".test.js", ".test.ts", ".json"))`. -/
def valid_name (file : List Char) : Bool :=
  (pyEndsWith file ".js".data || pyEndsWith file ".ts".data || pyEndsWith file ".kt".data) &&
  !(pyEndsWith file ".test.js".data || pyEndsWith file ".test.ts".data ||
    pyEndsWith file ".json".data)

/-- Python `os.path.join(dirpath, file)` (POSIX rules). -/
def os_path_join (dirpath file : List Char) : List Char :=
  if file.head? = some '/' then file
  else if dirpath.isEmpty || dirpath.getLast? = some '/' then dirpath ++ file
  else dirpath ++ '/' :: file

/-- The `valid_files` comprehension of `traverse_and_update_files`: the walk
is a list of `(dirpath, filenames)` pairs as produced by `os.walk`, and the
result keeps, in order, the joined path of every file name passing
`valid_name`. -/
def valid_files (walk : List (List Char × List (List Char))) : List (List Char) :=
  walk.flatMap fun d => (d.2.filter valid_name).map (os_path_join d.1)

/-!
Predicates and unfolding lemmas used to reason about
`extract_existing_code`.
-/

/-- `noOpen l`: the two-character sequence `/*` does not occur in `l`. -/
def noOpen : List Char → Bool
  | [] => true
  | '/' :: rest =>
      match rest with
      | '*' :: _ => false
      | _ => noOpen rest
  | _ :: rest => noOpen rest

/-- `hasBlock l`: some occurrence of `/*` in `l` is followed by `*/`, i.e.
the documentation-block regex matches somewhere in `l`. -/
def hasBlock : List Char → Bool
  | [] => false
  | '/' :: rest =>
      (match rest with
       | '*' :: r => (findClose r).isSome
       | _ => false) || hasBlock rest
  | _ :: rest => hasBlock rest

theorem noOpen_open (r : List Char) : noOpen ('/' :: '*' :: r) = false := rfl

theorem noOpen_slash (b : Char) (r : List Char) (h : b ≠ '*') :
    noOpen ('/' :: b :: r) = noOpen (b :: r) := by
  simp [noOpen, h]

theorem noOpen_cons_of_ne (a : Char) (l : List Char) (h : a ≠ '/') :
    noOpen (a :: l) = noOpen l := by
  cases l <;> simp [noOpen, h]

theorem noOpen_pair {a b : Char} {l : List Char} (h : noOpen (a :: b :: l) = true) :
    ¬(a = '/' ∧ b = '*') ∧ noOpen (b :: l) = true := by
  by_cases ha : a = '/'
  · subst ha
    by_cases hb : b = '*'
    · subst hb; rw [noOpen_open] at h; cases h
    · rw [noOpen_slash b l hb] at h
      exact ⟨fun hc => hb hc.2, h⟩
  · rw [noOpen_cons_of_ne a _ ha] at h
    exact ⟨fun hc => ha hc.1, h⟩

theorem findClose_star_of_ne (y : Char) (l : List Char) (h : y ≠ '/') :
    findClose ('*' :: y :: l) = findClose (y :: l) := by
  simp [findClose, h]

theorem findClose_cons_of_ne (x : Char) (l : List Char) (h : x ≠ '*') :
    findClose (x :: l) = findClose l := by
  cases l <;> simp [findClose, h]

theorem findClose_singleton (c : Char) : findClose [c] = none := by
  by_cases hc : c = '*'
  · subst hc; rfl
  · rw [findClose_cons_of_ne c [] hc]; rfl

theorem findClose_append_close :
    ∀ b c : List Char, findClose b = none → findClose (b ++ '*' :: '/' :: c) = some c := by
  intro b
  induction b with
  | nil => intro c _; rfl
  | cons x b' ih =>
    intro c h
    by_cases hx : x = '*'
    · subst hx
      cases b' with
      | nil =>
        show findClose ('*' :: '*' :: '/' :: c) = some c
        rw [findClose_star_of_ne '*' ('/' :: c) (by decide)]
        rfl
      | cons y b'' =>
        by_cases hy : y = '/'
        · subst hy; simp [findClose] at h
        · rw [findClose_star_of_ne y b'' hy] at h
          show findClose ('*' :: y :: (b'' ++ '*' :: '/' :: c)) = some c
          rw [findClose_star_of_ne y _ hy]
          exact ih c h
    · rw [findClose_cons_of_ne x b' hx] at h
      show findClose (x :: (b' ++ '*' :: '/' :: c)) = some c
      rw [findClose_cons_of_ne x _ hx]
      exact ih c h

theorem findClose_snoc :
    ∀ l : List Char, ∀ c : Char, findClose l = none → c ≠ '/' → findClose (l ++ [c]) = none := by
  intro l
  induction l with
  | nil => intro c _ _; exact findClose_singleton c
  | cons x l' ih =>
    intro c h hc
    by_cases hx : x = '*'
    · subst hx
      cases l' with
      | nil =>
        show findClose ('*' :: [c]) = none
        by_cases h' : c = '/'
        · exact absurd h' hc
        · rw [findClose_star_of_ne c [] h']
          exact findClose_singleton c
      | cons y l'' =>
        by_cases hy : y = '/'
        · subst hy; simp [findClose] at h
        · rw [findClose_star_of_ne y l'' hy] at h
          show findClose ('*' :: y :: (l'' ++ [c])) = none
          rw [findClose_star_of_ne y _ hy]
          exact ih c h hc
    · rw [findClose_cons_of_ne x l' hx] at h
      show findClose (x :: (l' ++ [c])) = none
      rw [findClose_cons_of_ne x _ hx]
      exact ih c h hc

theorem findClose_cons_none (x : Char) (l : List Char) (hx : x ≠ '*')
    (h : findClose l = none) : findClose (x :: l) = none := by
  rw [findClose_cons_of_ne x l hx]; exact h

theorem hasBlock_cons_of_ne (a : Char) (l : List Char) (h : a ≠ '/') :
    hasBlock (a :: l) = hasBlock l := by
  cases l <;> simp [hasBlock, h]

theorem hasBlock_slash_of_ne (b : Char) (r : List Char) (h : b ≠ '*') :
    hasBlock ('/' :: b :: r) = hasBlock (b :: r) := by
  simp [hasBlock, h]

theorem hasBlock_open (r : List Char) :
    hasBlock ('/' :: '*' :: r) = ((findClose r).isSome || hasBlock ('*' :: r)) := by
  simp [hasBlock]

theorem extract_of_not_hasBlock : ∀ l : List Char, hasBlock l = false →
    extract_existing_code l = l := by
  intro l
  induction l with
  | nil => intro _; rfl
  | cons c l ih =>
    intro h
    cases l with
    | nil => exact extract_single c
    | cons b r =>
      by_cases hc : c = '/'
      · subst hc
        by_cases hb : b = '*'
        · subst hb
          rw [hasBlock_open] at h
          rcases Bool.or_eq_false_iff.mp h with ⟨h1, h2⟩
          rw [extract_open_none r (Option.not_isSome_iff_eq_none.mp (by simp [h1]))]
          rw [ih h2]
        · rw [hasBlock_slash_of_ne b r hb] at h
          rw [extract_cons _ _ _ (fun hp => hb hp.2)]
          rw [ih h]
      · rw [hasBlock_cons_of_ne c _ hc] at h
        rw [extract_cons _ _ _ (fun hp => hc hp.1)]
        rw [ih h]

theorem extract_append_of_noOpen :
    ∀ a rest : List Char, noOpen (a ++ rest.take 1) = true →
      extract_existing_code (a ++ rest) = a ++ extract_existing_code rest := by
  intro a
  induction a with
  | nil => intro rest _; rfl
  | cons x a' ih =>
    intro rest h
    cases hr : a' ++ rest with
    | nil =>
      rcases List.append_eq_nil.mp hr with ⟨ha', hrest⟩
      subst ha'; subst hrest
      rfl
    | cons y t =>
      have hhd : ∃ s, a' ++ rest.take 1 = y :: s := by
        cases a' with
        | nil =>
          simp only [List.nil_append] at hr ⊢
          subst hr
          exact ⟨[], rfl⟩
        | cons z a'' =>
          simp only [List.cons_append, List.cons.injEq] at hr
          exact ⟨a'' ++ rest.take 1, by rw [hr.1]; rfl⟩
      rcases hhd with ⟨s, hs⟩
      simp only [List.cons_append] at h
      rw [hs] at h
      have hp := noOpen_pair h
      have hno : noOpen (a' ++ rest.take 1) = true := by rw [hs]; exact hp.2
      show extract_existing_code (x :: (a' ++ rest)) = x :: (a' ++ extract_existing_code rest)
      rw [hr, extract_cons _ _ _ hp.1, ← hr, ih rest hno]

/-!
Behavioural lemmas about `generate_documentation` and `process_file`.
-/

theorem dictLookup_insert_self (d : Dict) (k v : List Char) :
    dictLookup (dictInsert d k v) k = some v := by
  induction d with
  | nil => simp [dictInsert, dictLookup]
  | cons kv rest ih =>
    obtain ⟨k', w⟩ := kv
    by_cases h : k' = k
    · simp [dictInsert, dictLookup, h]
    · simp [dictInsert, dictLookup, h, ih]

theorem generate_documentation_hit (svc : Svc) (cache : Dict) (code d : List Char)
    (h : dictLookup cache (fingerprint code) = some d) :
    generate_documentation svc cache code = ⟨some d, cache, 0⟩ := by
  show (match dictLookup cache (fingerprint code) with
        | some cached => (⟨some cached, cache, 0⟩ : GenOut)
        | none =>
            match svc (truncate_code code) with
            | some text => ⟨some text, dictInsert cache (fingerprint code) text, 1⟩
            | none => ⟨none, cache, 1⟩) = ⟨some d, cache, 0⟩
  rw [h]

theorem generate_documentation_miss_hit (svc : Svc) (cache : Dict) (code text : List Char)
    (h₁ : dictLookup cache (fingerprint code) = none)
    (h₂ : svc (truncate_code code) = some text) :
    generate_documentation svc cache code =
      ⟨some text, dictInsert cache (fingerprint code) text, 1⟩ := by
  show (match dictLookup cache (fingerprint code) with
        | some cached => (⟨some cached, cache, 0⟩ : GenOut)
        | none =>
            match svc (truncate_code code) with
            | some text => ⟨some text, dictInsert cache (fingerprint code) text, 1⟩
            | none => ⟨none, cache, 1⟩) = _
  rw [h₁, h₂]

theorem generate_documentation_miss_fail (svc : Svc) (cache : Dict) (code : List Char)
    (h₁ : dictLookup cache (fingerprint code) = none)
    (h₂ : svc (truncate_code code) = none) :
    generate_documentation svc cache code = ⟨none, cache, 1⟩ := by
  show (match dictLookup cache (fingerprint code) with
        | some cached => (⟨some cached, cache, 0⟩ : GenOut)
        | none =>
            match svc (truncate_code code) with
        | some text => ⟨some text, dictInsert cache (fingerprint code) text, 1⟩
        | none => ⟨none, cache, 1⟩) = _
  rw [h₁, h₂]

theorem process_file_skip (svc : Svc) (path cache content :_) (h : pyStrip content = [] ∨
    (generate_documentation svc cache (extract_existing_code (pyStrip content))).ret = none) :
    (process_file svc path cache content).ret = none ∧
    (process_file svc path cache content).content = content := by
  simp only [process_file]
  rcases h with h | h
  · rw [h]
    exact ⟨rfl, rfl⟩
  · by_cases he : (pyStrip content).isEmpty = true
    · rw [if_pos he]
      exact ⟨rfl, rfl⟩
    · rw [if_neg he, h]
      exact ⟨rfl, rfl⟩

theorem process_file_success (svc : Svc) (path cache content doc :_)
    (hne : pyStrip content ≠ []) (hdoc : doc ≠ [])
    (h : (generate_documentation svc cache (extract_existing_code (pyStrip content))).ret =
      some doc) :
    process_file svc path cache content =
      ⟨some path, wrap doc (extract_existing_code (pyStrip content)),
       (generate_documentation svc cache (extract_existing_code (pyStrip content))).cache,
       (generate_documentation svc cache (extract_existing_code (pyStrip content))).net⟩ := by
  simp only [process_file]
  rw [if_neg (by simpa using hne)]
  split
  · next d heq =>
    rw [h] at heq
    injection heq with heq
    subst heq
    rw [if_neg (by simpa using hdoc)]
  · next heq =>
    rw [h] at heq
    simp at heq

theorem process_file_empty_doc_skip (svc : Svc) (path cache content :_)
    (h : (generate_documentation svc cache (extract_existing_code (pyStrip content))).ret =
      some []) :
    (process_file svc path cache content).ret = none ∧
    (process_file svc path cache content).content = content := by
  simp only [process_file]
  by_cases he : (pyStrip content).isEmpty = true
  · rw [if_pos he]; exact ⟨rfl, rfl⟩
  · rw [if_neg he]
    split
    · next d heq =>
      rw [h] at heq
      injection heq with heq
      subst heq
      exact ⟨rfl, rfl⟩
    · exact ⟨rfl, rfl⟩

theorem process_file_ret_cases (svc : Svc) (path cache content :_) :
    (process_file svc path cache content).ret = none ∨
    (process_file svc path cache content).ret = some path := by
  simp only [process_file]
  by_cases he : (pyStrip content).isEmpty = true
  · rw [if_pos he]; exact Or.inl rfl
  · rw [if_neg he]
    split
    · split
      · exact Or.inl rfl
      · exact Or.inr rfl
    · exact Or.inl rfl

theorem runFiles_append (svc : Svc) :
    ∀ (l₁ l₂ : List (List Char × List Char)) (cache : Dict),
      runFiles svc cache (l₁ ++ l₂) =
        ⟨(runFiles svc cache l₁).updated_files ++
           (runFiles svc (runFiles svc cache l₁).cache l₂).updated_files,
         (runFiles svc cache l₁).contents ++
           (runFiles svc (runFiles svc cache l₁).cache l₂).contents,
         (runFiles svc (runFiles svc cache l₁).cache l₂).cache,
         (runFiles svc cache l₁).net + (runFiles svc (runFiles svc cache l₁).cache l₂).net⟩ := by
  intro l₁
  induction l₁ with
  | nil => intro l₂ cache; simp [runFiles]
  | cons hd l₁' ih =>
    intro l₂ cache
    obtain ⟨p, c⟩ := hd
    simp only [List.cons_append, runFiles, List.append_eq]
    rw [ih l₂ (process_file svc p cache c).cache]
    cases (process_file svc p cache c).ret <;>
      simp [List.append_assoc, Nat.add_assoc]

theorem mem_updated_files (svc : Svc) :
    ∀ (files : List (List Char × List Char)) (cache : Dict) (q : List Char),
      q ∈ (runFiles svc cache files).updated_files → q ∈ files.map Prod.fst := by
  intro files
  induction files with
  | nil => intro cache q h; simp [runFiles] at h
  | cons hd rest ih =>
    intro cache q h
    obtain ⟨p, c⟩ := hd
    simp only [runFiles] at h
    rcases process_file_ret_cases svc p cache c with hr | hr <;> rw [hr] at h
    · exact List.mem_cons_of_mem _ (ih _ q h)
    · simp only [List.mem_cons] at h
      rcases h with h | h
      · simp [h]
      · exact List.mem_cons_of_mem _ (ih _ q h)

/-!
The claims.
-/

/-- C5: two content strings that agree on their truncation (first
`MAX_LINES` lines joined with newlines and then cut to `MAX_CHARS`
characters) — i.e. that differ only beyond the truncation boundary — receive
the same cache key from the fingerprint operation, so both collapse to the
same cache entry. -/
theorem fingerprint_eq_of_truncate_eq (c₁ c₂ : List Char)
    (h : truncate_code c₁ = truncate_code c₂) :
    fingerprint c₁ = fingerprint c₂ ∧
      ∀ cache : Dict, dictLookup cache (fingerprint c₁) = dictLookup cache (fingerprint c₂) := by
  have hf : fingerprint c₁ = fingerprint c₂ := by unfold fingerprint; rw [h]
  exact ⟨hf, fun cache => by rw [hf]⟩

theorem fingerprint_eq_of_truncate_eq_witness :
    truncate_code ['a', '\n'] = truncate_code ['a'] ∧
      fingerprint ['a', '\n'] = fingerprint ['a'] := by
  have h : truncate_code ['a', '\n'] = truncate_code ['a'] := by decide
  exact ⟨h, (fingerprint_eq_of_truncate_eq _ _ h).1⟩

/-- C9: a file whose content consists only of whitespace characters (the
truly empty file included) is treated as empty by `process_file`: the call
returns `None` (skipped), makes no generation-service call, and leaves the
on-disk content and the cache unchanged. -/
theorem process_file_whitespace_skip (svc : Svc) (path cache content :_)
    (h : ∀ c ∈ content, pyWhitespace c = true) :
    process_file svc path cache content = ⟨none, content, cache, 0⟩ := by
  have hs : pyStrip content = [] := by
    unfold pyStrip
    rw [List.dropWhile_eq_nil_iff.mpr h]
    rfl
  simp [process_file, hs]

theorem process_file_whitespace_skip_witness :
    process_file (fun _ => some ['D']) ['p'] [] [' ', '\n', '\t'] =
      ⟨none, [' ', '\n', '\t'], [], 0⟩ :=
  process_file_whitespace_skip _ _ _ _ (by decide)

/-- C10: the artifact `updated_files.txt` is written exactly when at least
one file was updated: a run with an empty `updated_files` list leaves any
pre-existing artifact content untouched, and a run with a non-empty list
overwrites it with the newline-joined list of updated paths. -/
theorem updated_files_txt_write_condition (svc : Svc) (cache : Dict)
    (files : List (List Char × List Char)) (prev : Option (List Char)) :
    ((runFiles svc cache files).updated_files = [] →
      (traverse_and_update_files svc cache files prev).2 = prev) ∧
    ((runFiles svc cache files).updated_files ≠ [] →
      (traverse_and_update_files svc cache files prev).2 =
        some (joinNL (runFiles svc cache files).updated_files)) := by
  unfold traverse_and_update_files
  constructor
  · intro h; simp [h]
  · intro h; simp [h]

theorem updated_files_txt_write_condition_witness :
    (runFiles (fun _ => none) [] [(['p'], ['x'])]).updated_files = [] ∧
      (traverse_and_update_files (fun _ => none) [] [(['p'], ['x'])] (some ['o'])).2 =
        some ['o'] := by
  have h : (runFiles (fun _ => none) [] [(['p'], ['x'])]).updated_files = [] := rfl
  exact ⟨h, (updated_files_txt_write_condition _ _ _ _).1 h⟩

/-- C6 (amended): on a cache hit `generate_documentation` returns the cached
text with no network call (and an unchanged cache); consequently, for two
inputs with identical fingerprints, if the first call returned documentation
then the second call makes zero network calls.  (The success condition on the
first call is the amendment: after a failed first call the fingerprint is not
cached and the second call does contact the service.) -/
theorem generate_documentation_cache_correct (svc : Svc) (cache : Dict)
    (c₁ c₂ d : List Char) :
    (dictLookup cache (fingerprint c₁) = some d →
      generate_documentation svc cache c₁ = ⟨some d, cache, 0⟩) ∧
    (fingerprint c₁ = fingerprint c₂ →
      (generate_documentation svc cache c₁).ret.isSome = true →
      (generate_documentation svc (generate_documentation svc cache c₁).cache c₂).net = 0) := by
  constructor
  · exact generate_documentation_hit svc cache c₁ d
  · intro hfp hsome
    cases hlk : dictLookup cache (fingerprint c₁) with
    | some d₀ =>
      rw [generate_documentation_hit svc cache c₁ d₀ hlk]
      rw [generate_documentation_hit svc cache c₂ d₀ (by rw [← hfp]; exact hlk)]
    | none =>
      cases hsvc : svc (truncate_code c₁) with
      | some text =>
        rw [generate_documentation_miss_hit svc cache c₁ text hlk hsvc]
        rw [generate_documentation_hit svc _ c₂ text
          (by rw [← hfp]; exact dictLookup_insert_self cache (fingerprint c₁) text)]
      | none =>
        rw [generate_documentation_miss_fail svc cache c₁ hlk hsvc] at hsome
        simp at hsome

/-- C6 counterexample: with an empty cache and an always-failing service, two
`generate_documentation` calls on the same content (hence with identical
fingerprints) each make one network call, so the second call does not make
zero network calls; the claim's unconditional consequence clause is false. -/
theorem second_call_network_counterexample :
    fingerprint ['x'] = fingerprint ['x'] ∧
    (generate_documentation (fun _ => none) [] ['x']).net = 1 ∧
    (generate_documentation (fun _ => none)
        (generate_documentation (fun _ => none) [] ['x']).cache ['x']).net ≠ 0 := by
  refine ⟨rfl, rfl, ?_⟩
  have h : (generate_documentation (fun _ => none)
      (generate_documentation (fun _ => none) [] ['x']).cache ['x']).net = 1 := rfl
  rw [h]
  exact Nat.one_ne_zero

theorem generate_documentation_cache_correct_witness :
    generate_documentation (fun _ => some ['E']) [(fingerprint ['x'], ['D'])] ['x'] =
      ⟨some ['D'], [(fingerprint ['x'], ['D'])], 0⟩ ∧
    (generate_documentation (fun _ => some ['E'])
        (generate_documentation (fun _ => some ['E']) [] ['y']).cache ['y']).net = 0 := by
  constructor
  · exact (generate_documentation_cache_correct _ _ ['x'] ['x'] ['D']).1
      (by simp [dictLookup])
  · exact (generate_documentation_cache_correct _ _ ['y'] ['y'] ['D']).2 rfl rfl

/-- C7: writes happen only after a successful generation result.  For every
file of a run (split as `pre ++ (p, c) :: post`, with the distinct paths
that `os.walk` produces) whose trimmed content is empty or whose
documentation generation fails at its turn, `process_file` returns `None`
(skipped), the file's recorded on-disk content after the run is its original
content, and its path is not in the run's `updated_files`. -/
theorem process_file_skip_frame (svc : Svc) (cache : Dict)
    (pre post : List (List Char × List Char)) (p c :_)
    (hnd : ((pre ++ (p, c) :: post).map Prod.fst).Nodup)
    (hskip : pyStrip c = [] ∨
      (generate_documentation svc (runFiles svc cache pre).cache
        (extract_existing_code (pyStrip c))).ret = none) :
    (process_file svc p (runFiles svc cache pre).cache c).ret = none ∧
    (p, c) ∈ (runFiles svc cache (pre ++ (p, c) :: post)).contents ∧
    p ∉ (runFiles svc cache (pre ++ (p, c) :: post)).updated_files := by
  have hskip' := process_file_skip svc p (runFiles svc cache pre).cache c hskip
  refine ⟨hskip'.1, ?_, ?_⟩
  · rw [runFiles_append]
    apply List.mem_append_right
    show (p, c) ∈ (runFiles svc (runFiles svc cache pre).cache ((p, c) :: post)).contents
    simp only [runFiles]
    rw [hskip'.2]
    exact List.mem_cons_self _ _
  · rw [runFiles_append]
    intro hmem
    rw [List.map_append, List.map_cons] at hnd
    rcases List.mem_append.mp hmem with hmem | hmem
    · have h₁ : p ∈ pre.map Prod.fst := mem_updated_files svc pre cache p hmem
      have h₂ : p ∈ (p, c).1 :: post.map Prod.fst := List.mem_cons_self _ _
      exact (List.disjoint_of_nodup_append hnd) h₁ h₂
    · have hmem' : p ∈ (runFiles svc (runFiles svc cache pre).cache ((p, c) :: post)).updated_files := hmem
      simp only [runFiles, hskip'.1] at hmem'
      have h₁ : p ∈ post.map Prod.fst :=
        mem_updated_files svc post (process_file svc p (runFiles svc cache pre).cache c).cache p hmem'
      have h₂ := (List.nodup_cons.mp (List.Nodup.of_append_right hnd)).1
      exact h₂ h₁

theorem process_file_skip_frame_witness :
    ((([] : List (List Char × List Char)) ++ (['p'], ['x']) :: []).map Prod.fst).Nodup ∧
    (generate_documentation (fun _ => none) (runFiles (fun _ => none) [] []).cache
        (extract_existing_code (pyStrip ['x']))).ret = none ∧
    (process_file (fun _ => none) ['p'] (runFiles (fun _ => none) [] []).cache ['x']).ret = none ∧
    (['p'], ['x']) ∈ (runFiles (fun _ => none) [] ([] ++ (['p'], ['x']) :: [])).contents ∧
    ['p'] ∉ (runFiles (fun _ => none) [] ([] ++ (['p'], ['x']) :: [])).updated_files := by
  have hnd : ((([] : List (List Char × List Char)) ++ (['p'], ['x']) :: []).map Prod.fst).Nodup := by
    simp
  have hgen : (generate_documentation (fun _ => none) (runFiles (fun _ => none) [] []).cache
      (extract_existing_code (pyStrip ['x']))).ret = none := rfl
  have h := process_file_skip_frame (fun _ => none) [] [] [] ['p'] ['x'] hnd (Or.inr hgen)
  exact ⟨hnd, hgen, h.1, h.2.1, h.2.2⟩

/-- C1 (amended): after a successful `process_file` run on a file — one in
which generation returned a non-empty documentation text, the only case in
which the Python guard `if documentation:` writes — the on-disk content
equals `"/*\n" + documentation + "\n*/\n" + strippedOriginalContent`, where
`strippedOriginalContent` is the whitespace-trimmed original content with
every `/* ... */` block (together with the whitespace following it) removed.
(The delimiters carry newlines, not spaces, and the trim and the removal of
all blocks are the corrections to the claim's format.) -/
theorem process_file_writes_wrapped_doc (svc : Svc) (path cache content doc :_)
    (hne : pyStrip content ≠ []) (hdoc : doc ≠ [])
    (h : (generate_documentation svc cache (extract_existing_code (pyStrip content))).ret =
      some doc) :
    (process_file svc path cache content).ret = some path ∧
    (process_file svc path cache content).content =
      "/*\n".data ++ doc ++ "\n*/\n".data ++ extract_existing_code (pyStrip content) := by
  rw [process_file_success svc path cache content doc hne hdoc h]
  exact ⟨rfl, rfl⟩

theorem process_file_writes_wrapped_doc_witness :
    pyStrip ['x'] ≠ [] ∧ (['D'] : List Char) ≠ [] ∧
    (generate_documentation (fun _ => some ['D']) []
        (extract_existing_code (pyStrip ['x']))).ret = some ['D'] ∧
    (process_file (fun _ => some ['D']) ['p'] [] ['x']).ret = some ['p'] ∧
    (process_file (fun _ => some ['D']) ['p'] [] ['x']).content =
      "/*\n".data ++ ['D'] ++ "\n*/\n".data ++ extract_existing_code (pyStrip ['x']) := by
  have h := process_file_writes_wrapped_doc (fun _ => some ['D']) ['p'] [] ['x'] ['D']
    (by decide) (by decide) rfl
  exact ⟨by decide, by decide, rfl, h.1, h.2⟩

/-- C1 counterexample: a successful run on content `"x"` with generated
documentation `"D"` writes `"/*\nD\n*/\nx"`, which is not the claimed
`"/* D */\n" + strippedOriginalContent`; the pipeline separates the comment
delimiters from the documentation with newlines, not spaces. -/
theorem process_file_spec_format_counterexample :
    (process_file (fun _ => some ['D']) ['p'] [] ['x']).ret = some ['p'] ∧
    (process_file (fun _ => some ['D']) ['p'] [] ['x']).content = "/*\nD\n*/\nx".data ∧
    (process_file (fun _ => some ['D']) ['p'] [] ['x']).content ≠
      "/* ".data ++ ['D'] ++ " */\n".data ++ extract_existing_code (pyStrip ['x']) := by
  refine ⟨rfl, rfl, ?_⟩
  have h : (process_file (fun _ => some ['D']) ['p'] [] ['x']).content =
      "/*\nD\n*/\nx".data := rfl
  rw [h]
  decide

/-- C2 (amended): the strip operation removes every `/* ... */` block
(lazily matched, together with the whitespace that follows it) wherever it
occurs in the content, not only at the start: for a content of the form
`a ++ "/*" ++ b ++ "*/" ++ c` whose prefix `a` opens no block and whose body
`b` contains no closing `*/`, the result is `a` followed by the stripped
remainder with its leading whitespace removed. -/
theorem extract_removes_block_anywhere (a b c : List Char)
    (ha : noOpen (a ++ ['/']) = true) (hb : findClose b = none) :
    extract_existing_code (a ++ '/' :: '*' :: (b ++ '*' :: '/' :: c)) =
      a ++ extract_existing_code (c.dropWhile pyWhitespace) := by
  have h1 : extract_existing_code (a ++ '/' :: '*' :: (b ++ '*' :: '/' :: c)) =
      a ++ extract_existing_code ('/' :: '*' :: (b ++ '*' :: '/' :: c)) := by
    apply extract_append_of_noOpen
    simpa using ha
  rw [h1, extract_open _ _ (findClose_append_close b c hb)]

theorem extract_removes_block_anywhere_witness :
    noOpen (['x', ' '] ++ ['/']) = true ∧ findClose ['c'] = none ∧
    extract_existing_code (['x', ' '] ++ '/' :: '*' :: (['c'] ++ '*' :: '/' :: [' ', 'y'])) =
      ['x', ' '] ++ extract_existing_code ([' ', 'y'].dropWhile pyWhitespace) :=
  ⟨by decide, by decide,
    extract_removes_block_anywhere ['x', ' '] ['c'] [' ', 'y'] (by decide) (by decide)⟩

/-- C2 counterexample: in the content `"a /*c*/ b"` the block `/*c*/` occurs
after the non-comment text `"a "`, yet strip removes it (and the following
space), producing `"a b"` instead of leaving the content unchanged as the
claim states. -/
theorem extract_not_only_leading_counterexample :
    extract_existing_code "a /*c*/ b".data = "a b".data ∧
    extract_existing_code "a /*c*/ b".data ≠ "a /*c*/ b".data := by
  constructor
  · decide
  · decide

/-- C3 (amended): strip is idempotent on every content whose stripped form
contains no remaining `/* ... */` block (in particular, stripping content
without any block is a no-op); it is not idempotent in general, because
removing a block can splice the surrounding text into a new block. -/
theorem extract_idempotent_of_no_block (l : List Char)
    (h : hasBlock (extract_existing_code l) = false) :
    extract_existing_code (extract_existing_code l) = extract_existing_code l :=
  extract_of_not_hasBlock _ h

theorem extract_idempotent_of_no_block_witness :
    hasBlock (extract_existing_code "/*a*/x".data) = false ∧
    extract_existing_code (extract_existing_code "/*a*/x".data) =
      extract_existing_code "/*a*/x".data :=
  ⟨by decide, extract_idempotent_of_no_block _ (by decide)⟩

/-- C3 counterexample: on `"a//*x*/*b*/"` strip removes the block `/*x*/`,
producing `"a/*b*/"`, and stripping that again produces `"a"`: strip is not
idempotent. -/
theorem extract_not_idempotent_counterexample :
    extract_existing_code "a//*x*/*b*/".data = "a/*b*/".data ∧
    extract_existing_code (extract_existing_code "a//*x*/*b*/".data) ≠
      extract_existing_code "a//*x*/*b*/".data := by
  constructor
  · decide
  · decide

/-- C4 (amended): `strip(wrap(doc, content)) = content` holds for every
documentation text `doc` that contains no closing `*/` and every content
that contains no `/* ... */` block and does not start with a whitespace
character.  (The two added conditions are forced: a `*/` inside the
documentation truncates the match early, and the regex's trailing `\s*`
consumes whitespace at the start of the content.) -/
theorem strip_wrap_roundtrip (doc content : List Char)
    (hdoc : findClose doc = none)
    (hcontent : hasBlock content = false)
    (hws : content.dropWhile pyWhitespace = content) :
    extract_existing_code (wrap doc content) = content := by
  have hw : wrap doc content =
      '/' :: '*' :: (('\n' :: (doc ++ ['\n'])) ++ '*' :: '/' :: ('\n' :: content)) := by
    have h1 : "/*\n".data = ['/', '*', '\n'] := rfl
    have h2 : "\n*/\n".data = ['\n', '*', '/', '\n'] := rfl
    simp [wrap, h1, h2]
  rw [hw]
  have hfc : findClose ('\n' :: (doc ++ ['\n'])) = none :=
    findClose_cons_none '\n' _ (by decide) (findClose_snoc doc '\n' hdoc (by decide))
  rw [extract_open _ _ (findClose_append_close _ _ hfc)]
  rw [List.dropWhile_cons_of_pos (by decide), hws]
  exact extract_of_not_hasBlock content hcontent

theorem strip_wrap_roundtrip_witness :
    findClose ['d'] = none ∧ hasBlock ['x'] = false ∧
    (['x'] : List Char).dropWhile pyWhitespace = ['x'] ∧
    extract_existing_code (wrap ['d'] ['x']) = ['x'] :=
  ⟨by decide, by decide, by decide,
    strip_wrap_roundtrip ['d'] ['x'] (by decide) (by decide) (by decide)⟩

/-- C4 counterexample: with `doc = "*/"` and `content = " x"` (a content with
no `/* ... */` block, as the claim requires), stripping the wrapped file
yields `"*/\n x"`, not the original content: the round trip fails for
documentation texts containing `*/`.  (A content with leading whitespace
fails the round trip as well, since the regex's trailing `\s*` eats it.) -/
theorem strip_wrap_roundtrip_counterexample :
    hasBlock " x".data = false ∧
    extract_existing_code (wrap "*/".data " x".data) = "*/\n x".data ∧
    extract_existing_code (wrap "*/".data " x".data) ≠ " x".data := by
  refine ⟨by decide, by decide, by decide⟩

/-!
Suffix-transfer lemmas for the discovery filter.
-/

theorem suffix_append_of_length_le {e f : List Char} (a : List Char)
    (h : e <:+ a ++ f) (hl : e.length ≤ f.length) : e <:+ f := by
  obtain ⟨t, ht⟩ := h
  have hlt : t.length + e.length = a.length + f.length := by
    rw [← List.length_append, ht, List.length_append]
  have h2 : e = (a ++ f).drop t.length := by rw [← ht, List.drop_left]
  have h3 : (a ++ f).drop t.length = f.drop (t.length - a.length) := by
    rw [List.drop_append_eq_append_drop, List.drop_eq_nil_of_le (by omega), List.nil_append]
  rw [h2, h3]
  exact List.drop_suffix _ _

theorem slash_mem_of_suffix_append {e f : List Char} (a : List Char)
    (ha : a.getLast? = some '/') (h : e <:+ a ++ f) (hl : f.length < e.length) :
    '/' ∈ e := by
  obtain ⟨t, ht⟩ := h
  have hlt : t.length + e.length = a.length + f.length := by
    rw [← List.length_append, ht, List.length_append]
  have htl : t.length < a.length := by omega
  have h5 : a = (t ++ e).take a.length := by
    rw [ht]
    exact (List.take_left' rfl).symm
  have h6 : (t ++ e).take a.length = t ++ e.take (a.length - t.length) := by
    rw [List.take_append_eq_append_take, List.take_of_length_le (by omega)]
  have h4 : a = t ++ e.take (a.length - t.length) := h5.trans h6
  have hsne : e.take (a.length - t.length) ≠ [] := by
    intro hnil
    have hlen0 := congrArg List.length hnil
    rw [List.length_take] at hlen0
    simp only [List.length_nil] at hlen0
    omega
  have hlast : (e.take (a.length - t.length)).getLast? = some '/' := by
    rw [h4, List.getLast?_append] at ha
    cases hgl : (e.take (a.length - t.length)).getLast? with
    | none => exact absurd (List.getLast?_eq_none_iff.mp hgl) hsne
    | some z =>
      rw [hgl] at ha
      simp at ha
      rw [ha]
  exact List.take_subset _ _ (List.mem_of_getLast?_eq_some hlast)

theorem suffix_os_path_join {e f : List Char} (d : List Char) (h : e <:+ f) :
    e <:+ os_path_join d f := by
  unfold os_path_join
  split
  · exact h
  · split
    · exact h.trans (List.suffix_append d f)
    · exact (h.trans (List.suffix_cons '/' f)).trans (List.suffix_append d ('/' :: f))

theorem not_suffix_append_slashlast {e f : List Char} (a : List Char)
    (ha : a.getLast? = some '/') (he : ¬ e <:+ f) (hs : '/' ∉ e) : ¬ e <:+ a ++ f := by
  intro hsfx
  by_cases hlen : e.length ≤ f.length
  · exact he (suffix_append_of_length_le a hsfx hlen)
  · exact hs (slash_mem_of_suffix_append a ha hsfx (by omega))

theorem not_suffix_os_path_join {e f : List Char} (d : List Char)
    (he : ¬ e <:+ f) (hs : '/' ∉ e) : ¬ e <:+ os_path_join d f := by
  unfold os_path_join
  split
  · exact he
  · split
    · next hcond =>
      rcases (by simpa using hcond : d = [] ∨ d.getLast? = some '/') with hnil | hlast
      · subst hnil; simpa using he
      · exact not_suffix_append_slashlast d hlast he hs
    · have hlast : (d ++ ['/']).getLast? = some '/' := List.getLast?_concat d
      have hre : d ++ '/' :: f = (d ++ ['/']) ++ f := by simp
      rw [hre]
      exact not_suffix_append_slashlast (d ++ ['/']) hlast he hs

theorem pyEndsWith_iff (s sfx : List Char) : pyEndsWith s sfx = true ↔ sfx <:+ s := by
  unfold pyEndsWith
  exact List.isSuffixOf_iff_suffix

/-- C8: the discovery comprehension never returns a path whose extension is
outside the allowed set or whose name matches an exclusion pattern: every
path it produces ends in `.js`, `.ts` or `.kt`, and ends in none of
`.test.js`, `.test.ts`, `.json`. -/
theorem valid_files_filter_sound (walk : List (List Char × List (List Char)))
    (p : List Char) (hp : p ∈ valid_files walk) :
    (".js".data <:+ p ∨ ".ts".data <:+ p ∨ ".kt".data <:+ p) ∧
    ¬ ".test.js".data <:+ p ∧ ¬ ".test.ts".data <:+ p ∧ ¬ ".json".data <:+ p := by
  unfold valid_files at hp
  rcases List.mem_flatMap.mp hp with ⟨d, _, hpd⟩
  rcases List.mem_map.mp hpd with ⟨f, hf, rfl⟩
  have hvf : valid_name f = true := (List.mem_filter.mp hf).2
  unfold valid_name at hvf
  rw [Bool.and_eq_true] at hvf
  obtain ⟨hpos, hneg⟩ := hvf
  simp only [Bool.or_eq_true, pyEndsWith_iff] at hpos
  simp only [Bool.not_eq_true', Bool.or_eq_false_iff] at hneg
  have hn1 : ¬ ".test.js".data <:+ f := by
    rw [← pyEndsWith_iff]; simp [hneg.1.1]
  have hn2 : ¬ ".test.ts".data <:+ f := by
    rw [← pyEndsWith_iff]; simp [hneg.1.2]
  have hn3 : ¬ ".json".data <:+ f := by
    rw [← pyEndsWith_iff]; simp [hneg.2]
  constructor
  · rcases hpos with (h | h) | h
    · exact Or.inl (suffix_os_path_join d.1 h)
    · exact Or.inr (Or.inl (suffix_os_path_join d.1 h))
    · exact Or.inr (Or.inr (suffix_os_path_join d.1 h))
  · exact ⟨not_suffix_os_path_join d.1 hn1 (by decide),
      not_suffix_os_path_join d.1 hn2 (by decide),
      not_suffix_os_path_join d.1 hn3 (by decide)⟩

theorem valid_files_filter_sound_witness :
    "src/a.js".data ∈ valid_files
      [("src".data, ["a.js".data, "b.test.js".data, "c.json".data, "d.py".data])] ∧
    ((".js".data <:+ "src/a.js".data ∨ ".ts".data <:+ "src/a.js".data ∨
        ".kt".data <:+ "src/a.js".data) ∧
      ¬ ".test.js".data <:+ "src/a.js".data ∧ ¬ ".test.ts".data <:+ "src/a.js".data ∧
      ¬ ".json".data <:+ "src/a.js".data) := by
  have hp : "src/a.js".data ∈ valid_files
      [("src".data, ["a.js".data, "b.test.js".data, "c.json".data, "d.py".data])] := by
    decide
  exact ⟨hp, valid_files_filter_sound _ _ hp⟩
